import Mathlib

/-!
# Verification of the NFSFT core (nonequispaced fast spherical Fourier transform)

Shallow embedding of the NFSFT module: the index mapper `NFSFT_INDEX` and the
buffer-size macro `NFSFT_F_HAT_SIZE`, the associated Legendre three-term
recurrence and its Rodrigues closed form, the direct forward and adjoint
spherical Fourier transforms, the precomputation ("wisdom") cache state
machine, and the buffer preservation/destruction contracts of the plan flags.

Pure integer formulas (index mapper) are translated directly from the source
documentation of the module.  The transform bodies themselves are not present
in the repository (only their defining documentation, declarations and
callers), so they are modelled from the specification where noted.
-/

namespace NFSFT

/-! ## Index mapper

From the source: `NFSFT_INDEX(k,n)` expands to `(N+2)(N-n+1)+N+k+1`, defined
for `0 ≤ k ≤ N`, `-k ≤ n ≤ k`; `NFSFT_F_HAT_SIZE(N)` is the logical size
`(2N+2)^2` of the flat coefficient array. -/

/-- The index `i` of the spherical Fourier coefficient `f_hat(k,n)` in the
flat coefficient buffer: `(N+2)(N-n+1)+N+k+1` (macro `NFSFT_INDEX`). -/
def NFSFT_INDEX (k n : ℤ) (N : ℕ) : ℤ :=
  ((N : ℤ) + 2) * ((N : ℤ) - n + 1) + (N : ℤ) + k + 1

/-- The logical size of a spherical Fourier coefficient array for bandwidth
`N`: `(2N+2)^2` (macro `NFSFT_F_HAT_SIZE`). -/
def NFSFT_F_HAT_SIZE (N : ℕ) : ℤ := (2 * (N : ℤ) + 2) ^ 2

/-- A pair `(k,n)` is a valid (degree, order) pair for bandwidth `N` when
`0 ≤ k ≤ N` and `-k ≤ n ≤ k`. -/
def validPair (N : ℕ) (k n : ℤ) : Prop :=
  0 ≤ k ∧ k ≤ (N : ℤ) ∧ -k ≤ n ∧ n ≤ k

instance (N : ℕ) (k n : ℤ) : Decidable (validPair N k n) := by
  unfold validPair; infer_instance

/-- The finite set of valid `(k,n)` pairs for bandwidth `N`. -/
def validPairs (N : ℕ) : Finset (ℤ × ℤ) :=
  (Finset.Icc 0 (N : ℤ) ×ˢ Finset.Icc (-(N : ℤ)) (N : ℤ)).filter
    (fun p => validPair N p.1 p.2)

theorem mem_validPairs {N : ℕ} {p : ℤ × ℤ} :
    p ∈ validPairs N ↔ validPair N p.1 p.2 := by
  unfold validPairs
  rcases p with ⟨k, n⟩
  simp only [Finset.mem_filter, Finset.mem_product, Finset.mem_Icc]
  constructor
  · rintro ⟨-, h⟩; exact h
  · rintro ⟨h0, hN, hn1, hn2⟩
    exact ⟨⟨⟨h0, hN⟩, ⟨by omega, by omega⟩⟩, ⟨h0, hN, hn1, hn2⟩⟩

theorem validPairs_nonempty (N : ℕ) : (validPairs N).Nonempty :=
  ⟨(0, 0), mem_validPairs.2 ⟨le_rfl, by positivity, by omega, le_rfl⟩⟩

/-- The maximum index addressable through the index mapper over all valid
`(k,n)` pairs for bandwidth `N`. -/
def maxIndex (N : ℕ) : ℤ :=
  (validPairs N).sup' (validPairs_nonempty N) (fun p => NFSFT_INDEX p.1 p.2 N)

/-- Range bound for the index mapper on valid pairs (shared helper). -/
theorem nfsft_index_bounds {N : ℕ} {k n : ℤ} (h : validPair N k n) :
    0 ≤ NFSFT_INDEX k n N ∧ NFSFT_INDEX k n N < NFSFT_F_HAT_SIZE N := by
  obtain ⟨hk0, hkN, hnl, hnr⟩ := h
  unfold NFSFT_INDEX NFSFT_F_HAT_SIZE
  constructor
  · nlinarith [Int.natCast_nonneg N]
  · nlinarith [Int.natCast_nonneg N]

/-- **C4.** For every bandwidth `N ≥ 0`, the index mapper
`index(k,n,N) = (N+2)(N-n+1)+N+k+1` is injective on the valid set
`{(k,n) : 0 ≤ k ≤ N, -k ≤ n ≤ k}` and every index it produces there lies in
the half-open range `[0, (2N+2)^2)`. -/
theorem nfsft_index_injective_and_in_range (N : ℕ) (k₁ n₁ k₂ n₂ : ℤ)
    (h₁ : validPair N k₁ n₁) (h₂ : validPair N k₂ n₂) :
    (NFSFT_INDEX k₁ n₁ N = NFSFT_INDEX k₂ n₂ N → k₁ = k₂ ∧ n₁ = n₂) ∧
      0 ≤ NFSFT_INDEX k₁ n₁ N ∧ NFSFT_INDEX k₁ n₁ N < NFSFT_F_HAT_SIZE N := by
  refine ⟨fun h => ?_, nfsft_index_bounds h₁⟩
  obtain ⟨hk₁0, hk₁N, hn₁l, hn₁r⟩ := h₁
  obtain ⟨hk₂0, hk₂N, hn₂l, hn₂r⟩ := h₂
  unfold NFSFT_INDEX at h
  have hmul : ((N : ℤ) + 2) * (n₂ - n₁) = k₂ - k₁ := by linear_combination h
  have hNk : (0 : ℤ) ≤ (N : ℤ) := Int.natCast_nonneg N
  rcases lt_trichotomy n₁ n₂ with hlt | heq | hgt
  · nlinarith
  · constructor
    · nlinarith
    · exact heq
  · nlinarith

/-- Witness for C4 at `N = 1`, `(k₁,n₁) = (1,-1)`, `(k₂,n₂) = (1,1)`. -/
theorem nfsft_index_injective_and_in_range_witness :
    validPair 1 1 (-1) ∧ validPair 1 1 1 ∧
      ((NFSFT_INDEX 1 (-1) 1 = NFSFT_INDEX 1 1 1 → (1 : ℤ) = 1 ∧ (-1 : ℤ) = 1) ∧
        0 ≤ NFSFT_INDEX 1 (-1) 1 ∧ NFSFT_INDEX 1 (-1) 1 < NFSFT_F_HAT_SIZE 1) :=
  ⟨by decide, by decide,
    nfsft_index_injective_and_in_range 1 1 (-1) 1 1 (by decide) (by decide)⟩

/-- **C5 counterexample.** At bandwidth `N = 1` the buffer size `(2N+2)^2 = 16`
is *not* equal to one plus the maximum addressable index (which is `13`), so
the claimed equality fails. -/
theorem f_hat_size_ne_succ_maxIndex :
    ¬ (NFSFT_F_HAT_SIZE 1 = 1 + maxIndex 1) := by
  decide

/-- **C5 (amended).** For every bandwidth `N`, the required buffer size
`(2N+2)^2` is consistent with the index mapper in the weaker sense that it is
at least one plus the maximum addressable index (with equality only at
`N = 0`): every addressable index fits in the buffer. -/
theorem f_hat_size_ge_succ_maxIndex (N : ℕ) :
    1 + maxIndex N ≤ NFSFT_F_HAT_SIZE N := by
  have h : maxIndex N < NFSFT_F_HAT_SIZE N := by
    unfold maxIndex
    rw [Finset.sup'_lt_iff]
    rintro ⟨k, n⟩ hp
    exact (nfsft_index_bounds (mem_validPairs.1 hp)).2
  omega

/-! ## Associated Legendre functions

From the source documentation (§ "Legendre Polynomials" and § "Associated
Legendre Functions"): the Legendre polynomials are given by the Rodrigues
formula `P_k(t) = 1/(2^k k!) d^k/dt^k (t^2-1)^k`; the associated Legendre
functions are `P_k^n(t) = sqrt((k-n)!/(k+n)!) (1-t^2)^(n/2) d^n/dt^n P_k(t)`
and obey the three-term recurrence
`P_{k+1}^n(t) = v_k^n t P_k^n(t) + w_k^n P_{k-1}^n(t)` with
`P_{n-1}^n := 0`, `P_n^n(t) = sqrt((2n)!)/(2^n n!) (1-t^2)^(n/2)` and
`v_k^n = (2k+1)/sqrt((k-n+1)(k+n+1))`,
`w_k^n = -sqrt((k-n)(k+n))/sqrt((k-n+1)(k+n+1))`. -/

noncomputable section

open Polynomial

/-- The Legendre polynomial of degree `k`, by the Rodrigues formula
`P_k(t) = 1/(2^k k!) * d^k/dt^k (t^2-1)^k`. -/
def legendreP (k : ℕ) : ℝ[X] :=
  C (1 / (2 ^ k * (k.factorial : ℝ))) * derivative^[k] ((X ^ 2 - 1) ^ k)

/-- Iterated derivative of `X * p`:
`D^[m] (X p) = X D^[m] p + m D^[m-1] p` (stated at `m+1` to avoid natural
subtraction). -/
theorem iterate_derivative_X_mul (m : ℕ) (p : ℝ[X]) :
    derivative^[m + 1] (X * p) =
      X * derivative^[m + 1] p + ((m : ℝ[X]) + 1) * derivative^[m] p := by
  induction m with
  | zero =>
    simp [derivative_mul]
    ring
  | succ m ih =>
    have hd : derivative ((m : ℝ[X]) + 1) = 0 := by
      simp [Polynomial.derivative_natCast]
    have h := congrArg (fun q : ℝ[X] => derivative q) ih
    simp only [derivative_add, derivative_mul, derivative_X, hd, zero_mul, one_mul,
      add_zero, zero_add, ← Function.iterate_succ_apply' derivative] at h
    push_cast at h ⊢
    linear_combination h

/-- The key Rodrigues-kernel identity, proved by a one-line induction on `m`:
`X D^[m+1] (X²-1)^(k+1) = (2(k+1)-m) D^[m] (X²-1)^(k+1) + 2(k+1) D^[m] (X²-1)^k`. -/
theorem key_identity (k m : ℕ) :
    X * derivative^[m + 1] (((X : ℝ[X]) ^ 2 - 1) ^ (k + 1)) =
      (2 * ((k : ℝ[X]) + 1) - (m : ℝ[X])) * derivative^[m] (((X : ℝ[X]) ^ 2 - 1) ^ (k + 1)) +
        2 * ((k : ℝ[X]) + 1) * derivative^[m] (((X : ℝ[X]) ^ 2 - 1) ^ k) := by
  induction m with
  | zero =>
    have h1 : derivative^[(0 : ℕ) + 1] (((X : ℝ[X]) ^ 2 - 1) ^ (k + 1)) =
        derivative (((X : ℝ[X]) ^ 2 - 1) ^ (k + 1)) := by
      norm_num
    have h2 : derivative ((X : ℝ[X]) ^ 2 - 1) = 2 * X := by
      simp [derivative_X_pow, map_ofNat]
    rw [h1, derivative_pow, C_eq_natCast, h2]
    simp only [Function.iterate_zero, id_eq, Nat.cast_zero, Nat.add_sub_cancel]
    push_cast
    rw [pow_succ]
    ring
  | succ m ih =>
    have hd1 : derivative (2 * ((k : ℝ[X]) + 1) - (m : ℝ[X])) = 0 := by
      simp [Polynomial.derivative_natCast]
    have hd2 : derivative (2 * ((k : ℝ[X]) + 1)) = 0 := by
      simp [Polynomial.derivative_natCast]
    have h := congrArg (fun q : ℝ[X] => derivative q) ih
    simp only [derivative_add, derivative_mul, derivative_X, hd1, hd2, zero_mul, one_mul,
      add_zero, zero_add, ← Function.iterate_succ_apply' derivative] at h
    push_cast at h ⊢
    linear_combination h

theorem monic_core (k : ℕ) : (((X : ℝ[X]) ^ 2 - 1) ^ k).Monic := by
  have h : ((X : ℝ[X]) ^ 2 - 1) = X ^ 2 - C 1 := by rw [map_one]
  exact (h ▸ monic_X_pow_sub_C (1 : ℝ) two_ne_zero).pow k

theorem core_natDegree (k : ℕ) : (((X : ℝ[X]) ^ 2 - 1) ^ k).natDegree = 2 * k := by
  have h : ((X : ℝ[X]) ^ 2 - 1) = X ^ 2 - C 1 := by rw [map_one]
  rw [h, Polynomial.Monic.natDegree_pow (monic_X_pow_sub_C (1 : ℝ) two_ne_zero),
    natDegree_X_pow_sub_C, Nat.mul_comm]

/-- The top iterated derivative of the Rodrigues kernel:
`D^[2n] (X²-1)^n = (2n)!`. -/
theorem iterate_derivative_core_top (n : ℕ) :
    derivative^[2 * n] (((X : ℝ[X]) ^ 2 - 1) ^ n) = C (((2 * n).factorial : ℝ)) := by
  have hle : (derivative^[2 * n] (((X : ℝ[X]) ^ 2 - 1) ^ n)).natDegree ≤ 0 := by
    have h := Polynomial.natDegree_iterate_derivative (((X : ℝ[X]) ^ 2 - 1) ^ n) (2 * n)
    rw [core_natDegree] at h
    omega
  rw [Polynomial.eq_C_of_natDegree_le_zero hle, Polynomial.coeff_iterate_derivative]
  have hcoeff : ((((X : ℝ[X]) ^ 2 - 1) ^ n)).coeff (0 + 2 * n) = 1 := by
    rw [Nat.zero_add, ← core_natDegree n]
    exact (monic_core n).coeff_natDegree
  rw [hcoeff]
  simp [Nat.descFactorial_self]

theorem legendreP_natDegree_le (k : ℕ) : (legendreP k).natDegree ≤ k := by
  unfold legendreP
  refine le_trans (natDegree_C_mul_le _ _) ?_
  have h := Polynomial.natDegree_iterate_derivative (((X : ℝ[X]) ^ 2 - 1) ^ k) k
  rw [core_natDegree] at h
  omega

theorem iterate_derivative_legendreP_zero {n k : ℕ} (h : k < n) :
    derivative^[n] (legendreP k) = 0 :=
  Polynomial.iterate_derivative_eq_zero (lt_of_le_of_lt (legendreP_natDegree_le k) h)

/-- `En n k t` is the `n`-th derivative of the degree-`k` Legendre polynomial,
evaluated at `t` (the polynomial part of the associated Legendre closed form). -/
def En (n k : ℕ) (t : ℝ) : ℝ := (derivative^[n] (legendreP k)).eval t

theorem En_scaled (n k : ℕ) (t : ℝ) :
    (2 ^ k * (k.factorial : ℝ)) * En n k t =
      (derivative^[n + k] (((X : ℝ[X]) ^ 2 - 1) ^ k)).eval t := by
  unfold En legendreP
  rw [Polynomial.iterate_derivative_C_mul, Polynomial.eval_mul, Polynomial.eval_C,
    ← Function.iterate_add_apply]
  have h2 : (2 : ℝ) ^ k ≠ 0 := by positivity
  have hf : (k.factorial : ℝ) ≠ 0 := Nat.cast_ne_zero.2 k.factorial_ne_zero
  field_simp

theorem En_zero_of_lt {n k : ℕ} (h : k < n) (t : ℝ) : En n k t = 0 := by
  unfold En
  rw [iterate_derivative_legendreP_zero h, Polynomial.eval_zero]

theorem En_self (n : ℕ) (t : ℝ) :
    En n n t = ((2 * n).factorial : ℝ) / (2 ^ n * (n.factorial : ℝ)) := by
  unfold En legendreP
  rw [Polynomial.iterate_derivative_C_mul, ← Function.iterate_add_apply,
    show n + n = 2 * n by ring, iterate_derivative_core_top]
  simp only [Polynomial.eval_mul, Polynomial.eval_C]
  ring

/-- One step of the derivative of the Rodrigues kernel, pushed below `m`
further derivatives. -/
theorem deriv_pow_step (j m : ℕ) :
    derivative^[m + 1] (((X : ℝ[X]) ^ 2 - 1) ^ (j + 1)) =
      ((2 * j + 2 : ℕ) : ℝ[X]) * derivative^[m] (X * ((X : ℝ[X]) ^ 2 - 1) ^ j) := by
  rw [Function.iterate_succ_apply]
  have h2 : derivative ((X : ℝ[X]) ^ 2 - 1) = 2 * X := by
    simp [derivative_X_pow, map_ofNat]
  have hstep : derivative ((((X : ℝ[X]) ^ 2 - 1)) ^ (j + 1)) =
      ((2 * j + 2 : ℕ) : ℝ[X]) * (X * ((X : ℝ[X]) ^ 2 - 1) ^ j) := by
    rw [derivative_pow, h2, C_eq_natCast, Nat.add_sub_cancel]
    push_cast
    ring
  rw [hstep, Polynomial.iterate_derivative_natCast_mul]

/-- The mixed-order three-term identity for the derivative factors of the
associated Legendre closed form:
`(k+1-n) D^n P_{k+1} = (2k+1) t D^n P_k - (k+n) D^n P_{k-1}`
(stated with `k = kk+1`). -/
theorem mixed_En (kk n : ℕ) (t : ℝ) :
    ((kk : ℝ) + 2 - n) * En n (kk + 2) t =
      (2 * (kk : ℝ) + 3) * t * En n (kk + 1) t - ((kk : ℝ) + 1 + n) * En n kk t := by
  have i1 : n + kk + 1 + 1 = n + kk + 2 := by omega
  have i2 : kk + 1 + 1 = kk + 2 := by omega
  have i3 : n + (kk + 1) = n + kk + 1 := by omega
  have i4 : n + (kk + 2) = n + kk + 2 := by omega
  have hA := deriv_pow_step (kk + 1) (n + kk + 1)
  rw [i1, i2, iterate_derivative_X_mul (n + kk) (((X : ℝ[X]) ^ 2 - 1) ^ (kk + 1))] at hA
  have hK := key_identity kk (n + kk)
  have hAe := congrArg (fun q : ℝ[X] => q.eval t) hA
  have hKe := congrArg (fun q : ℝ[X] => q.eval t) hK
  simp only [Polynomial.eval_mul, Polynomial.eval_add, Polynomial.eval_sub,
    Polynomial.eval_natCast, Polynomial.eval_X, Polynomial.eval_one,
    Polynomial.eval_ofNat] at hAe hKe
  have hS2 := En_scaled n (kk + 2) t
  have hS1 := En_scaled n (kk + 1) t
  have hS0 := En_scaled n kk t
  rw [i4] at hS2
  rw [i3] at hS1
  set a := (derivative^[n + kk + 2] (((X : ℝ[X]) ^ 2 - 1) ^ (kk + 2))).eval t with hadef
  set b := (derivative^[n + kk + 1] (((X : ℝ[X]) ^ 2 - 1) ^ (kk + 1))).eval t with hbdef
  set c := (derivative^[n + kk] (((X : ℝ[X]) ^ 2 - 1) ^ (kk + 1))).eval t with hcdef
  set d := (derivative^[n + kk] (((X : ℝ[X]) ^ 2 - 1) ^ kk)).eval t with hddef
  push_cast at hAe hKe
  have hf2 : ((kk + 2).factorial : ℝ) = ((kk : ℝ) + 2) * ((kk + 1).factorial : ℝ) := by
    rw [Nat.factorial_succ]; push_cast; ring
  have hf1 : ((kk + 1).factorial : ℝ) = ((kk : ℝ) + 1) * ((kk).factorial : ℝ) := by
    rw [Nat.factorial_succ]; push_cast; ring
  have h2ne : (2 : ℝ) ≠ 0 := two_ne_zero
  have hkfne : ((kk).factorial : ℝ) ≠ 0 := Nat.cast_ne_zero.2 (kk).factorial_ne_zero
  have hk1 : ((kk : ℝ) + 1) ≠ 0 := by positivity
  have hk2 : ((kk : ℝ) + 2) ≠ 0 := by positivity
  have hQ2 : (2 : ℝ) ^ (kk + 2) * ((kk + 2).factorial : ℝ) ≠ 0 := by
    refine mul_ne_zero (by positivity) (Nat.cast_ne_zero.2 (kk + 2).factorial_ne_zero)
  have hQ1 : (2 : ℝ) ^ (kk + 1) * ((kk + 1).factorial : ℝ) ≠ 0 := by
    refine mul_ne_zero (by positivity) (Nat.cast_ne_zero.2 (kk + 1).factorial_ne_zero)
  have hQ0 : (2 : ℝ) ^ kk * ((kk).factorial : ℝ) ≠ 0 := mul_ne_zero (by positivity) hkfne
  apply mul_left_cancel₀ hQ2
  linear_combination
    (((kk : ℝ) + 2 - n)) * hS2 + (((kk : ℝ) + 2 - n)) * hAe +
      (-((2 * (kk : ℝ) + 3) * t * 2 * ((kk : ℝ) + 2))) * hS1 +
      (((kk : ℝ) + 1 + n) * 4 * ((kk : ℝ) + 2) * ((kk : ℝ) + 1)) * hS0 +
      (-((2 * (kk : ℝ) + 3) * t * (2 : ℝ) ^ (kk + 2) * En n (kk + 1) t) +
        ((kk : ℝ) + 1 + n) * (2 : ℝ) ^ (kk + 2) * En n kk t) * hf2 +
      (((kk : ℝ) + 1 + n) * (2 : ℝ) ^ (kk + 2) * ((kk : ℝ) + 2) * En n kk t) * hf1 +
      (-(2 * ((kk : ℝ) + 2) * ((kk : ℝ) + 1 + n))) * hKe

/-- Recurrence coefficient `v_k^n = (2k+1)/sqrt((k-n+1)(k+n+1))` from the
source documentation. -/
def vkn (k n : ℕ) : ℝ :=
  (2 * (k : ℝ) + 1) / Real.sqrt (((k : ℝ) - n + 1) * ((k : ℝ) + n + 1))

/-- Recurrence coefficient `w_k^n = -sqrt((k-n)(k+n))/sqrt((k-n+1)(k+n+1))`
from the source documentation. -/
def wkn (k n : ℕ) : ℝ :=
  -(Real.sqrt (((k : ℝ) - n) * ((k : ℝ) + n)) /
    Real.sqrt (((k : ℝ) - n + 1) * ((k : ℝ) + n + 1)))

/-- Recurrence seed `P_n^n(t) = sqrt((2n)!)/(2^n n!) (1-t²)^(n/2)`. -/
def alfSeed (n : ℕ) (t : ℝ) : ℝ :=
  Real.sqrt (((2 * n).factorial : ℝ)) / (2 ^ n * (n.factorial : ℝ)) *
    (Real.sqrt (1 - t ^ 2)) ^ n

/-- The pair `(P_{n+j-1}^n(t), P_{n+j}^n(t))` computed by the three-term
recurrence of the source, starting from `P_{n-1}^n := 0` and the seed. -/
def alfPair (n : ℕ) (t : ℝ) : ℕ → ℝ × ℝ
  | 0 => (0, alfSeed n t)
  | j + 1 => ((alfPair n t j).2,
      vkn (n + j) n * t * (alfPair n t j).2 + wkn (n + j) n * (alfPair n t j).1)

/-- The associated Legendre function `P_k^n(t)` computed by the mandated
three-term recurrence (`0` for `k < n`). -/
def alf (n k : ℕ) (t : ℝ) : ℝ := if k < n then 0 else (alfPair n t (k - n)).2

/-- The associated Legendre function by the closed form of the source
documentation: `P_k^n(t) = sqrt((k-n)!/(k+n)!) (1-t²)^(n/2) d^n/dt^n P_k(t)`
with `P_k` the Rodrigues-formula Legendre polynomial. -/
def alfClosed (n k : ℕ) (t : ℝ) : ℝ :=
  Real.sqrt (((k - n).factorial : ℝ) / ((k + n).factorial : ℝ)) *
    (Real.sqrt (1 - t ^ 2)) ^ n * En n k t

theorem wkn_self (n : ℕ) : wkn n n = 0 := by
  unfold wkn
  rw [show ((n : ℝ) - n) * ((n : ℝ) + n) = 0 by ring, Real.sqrt_zero, zero_div, neg_zero]

theorem alfClosed_seed (n : ℕ) (t : ℝ) : alfClosed n n t = alfSeed n t := by
  unfold alfClosed alfSeed
  rw [Nat.sub_self, Nat.factorial_zero, show n + n = 2 * n by ring, En_self]
  have hF : (0 : ℝ) < ((2 * n).factorial : ℝ) := Nat.cast_pos.2 (Nat.factorial_pos _)
  have h1 : Real.sqrt ((1 : ℝ) / ((2 * n).factorial : ℝ)) =
      1 / Real.sqrt (((2 * n).factorial : ℝ)) := by
    rw [Real.sqrt_div (by norm_num : (0 : ℝ) ≤ 1), Real.sqrt_one]
  rw [Nat.cast_one, h1]
  have h2 : Real.sqrt (((2 * n).factorial : ℝ)) ≠ 0 := by
    positivity
  have h3 : Real.sqrt (((2 * n).factorial : ℝ)) ^ 2 = ((2 * n).factorial : ℝ) :=
    Real.sq_sqrt hF.le
  have h4 : Real.sqrt (((2 * n).factorial : ℝ)) * Real.sqrt (((2 * n).factorial : ℝ)) =
      ((2 * n).factorial : ℝ) := Real.mul_self_sqrt hF.le
  field_simp
  linear_combination (-(Real.sqrt (1 - t ^ 2) ^ n * 2 ^ n * (n.factorial : ℝ))) * h4

/-- A nonnegative constant can be pulled into a square root. -/
theorem mul_sqrt_eq (c x : ℝ) (hc : 0 ≤ c) :
    c * Real.sqrt x = Real.sqrt (c ^ 2 * x) := by
  rw [Real.sqrt_mul (sq_nonneg c), Real.sqrt_sq hc]

/-- Stepping the square-root factorial prefactor up one degree:
`sqrt((m-n+1)(m+n+1)) * sqrt((m+1-n)!/(m+1+n)!) = (m-n+1) * sqrt((m-n)!/(m+n)!)`. -/
theorem sqrt_fac_step (n m : ℕ) (hn : n ≤ m) :
    Real.sqrt (((m : ℝ) - n + 1) * ((m : ℝ) + n + 1)) *
      Real.sqrt (((m + 1 - n).factorial : ℝ) / ((m + 1 + n).factorial : ℝ)) =
    ((m : ℝ) - n + 1) * Real.sqrt (((m - n).factorial : ℝ) / ((m + n).factorial : ℝ)) := by
  have hcast : ((m - n : ℕ) : ℝ) = (m : ℝ) - n := Nat.cast_sub hn
  have hmn : (n : ℝ) ≤ (m : ℝ) := Nat.cast_le.2 hn
  have hA : (0 : ℝ) ≤ (m : ℝ) - n + 1 := by linarith
  have hB : (0 : ℝ) < (m : ℝ) + n + 1 := by positivity
  have hF : (0 : ℝ) < ((m - n).factorial : ℝ) := Nat.cast_pos.2 (Nat.factorial_pos _)
  have hG : (0 : ℝ) < ((m + n).factorial : ℝ) := Nat.cast_pos.2 (Nat.factorial_pos _)
  have hFac1 : ((m + 1 - n).factorial : ℝ) = ((m : ℝ) - n + 1) * ((m - n).factorial : ℝ) := by
    rw [show m + 1 - n = (m - n) + 1 by omega, Nat.factorial_succ]
    push_cast [hcast]
    ring
  have hFac2 : ((m + 1 + n).factorial : ℝ) = ((m : ℝ) + n + 1) * ((m + n).factorial : ℝ) := by
    rw [show m + 1 + n = (m + n) + 1 by omega, Nat.factorial_succ]
    push_cast
    ring
  rw [hFac1, hFac2, ← Real.sqrt_mul (mul_nonneg hA hB.le),
    mul_sqrt_eq ((m : ℝ) - n + 1) _ hA]
  congr 1
  field_simp
  ring

/-- Stepping the square-root factorial prefactor down one degree:
`sqrt((m+1-n)(m+1+n)) * sqrt((m-n)!/(m+n)!) = (m+1+n) * sqrt((m+1-n)!/(m+1+n)!)`. -/
theorem sqrt_fac_step_down (n m : ℕ) (hn : n ≤ m) :
    Real.sqrt (((m : ℝ) + 1 - n) * ((m : ℝ) + 1 + n)) *
      Real.sqrt (((m - n).factorial : ℝ) / ((m + n).factorial : ℝ)) =
    ((m : ℝ) + 1 + n) *
      Real.sqrt (((m + 1 - n).factorial : ℝ) / ((m + 1 + n).factorial : ℝ)) := by
  have hcast : ((m - n : ℕ) : ℝ) = (m : ℝ) - n := Nat.cast_sub hn
  have hmn : (n : ℝ) ≤ (m : ℝ) := Nat.cast_le.2 hn
  have hA : (0 : ℝ) ≤ (m : ℝ) + 1 - n := by linarith
  have hB : (0 : ℝ) < (m : ℝ) + 1 + n := by positivity
  have hF : (0 : ℝ) < ((m - n).factorial : ℝ) := Nat.cast_pos.2 (Nat.factorial_pos _)
  have hG : (0 : ℝ) < ((m + n).factorial : ℝ) := Nat.cast_pos.2 (Nat.factorial_pos _)
  have hFac1 : ((m + 1 - n).factorial : ℝ) = ((m : ℝ) + 1 - n) * ((m - n).factorial : ℝ) := by
    rw [show m + 1 - n = (m - n) + 1 by omega, Nat.factorial_succ]
    push_cast [hcast]
    ring
  have hFac2 : ((m + 1 + n).factorial : ℝ) = ((m : ℝ) + 1 + n) * ((m + n).factorial : ℝ) := by
    rw [show m + 1 + n = (m + n) + 1 by omega, Nat.factorial_succ]
    push_cast
    ring
  rw [hFac1, hFac2, ← Real.sqrt_mul (mul_nonneg hA hB.le),
    mul_sqrt_eq ((m : ℝ) + 1 + n) _ hB.le]
  congr 1
  field_simp
  ring

/-- `En 0 1 t = t`, the first-degree Legendre polynomial evaluated at `t`. -/
theorem En_zero_one (t : ℝ) : En 0 1 t = t := by
  have h := En_scaled 0 1 t
  have h2 : derivative ((X : ℝ[X]) ^ 2 - 1) = 2 * X := by
    simp [derivative_X_pow, map_ofNat]
  have h1 : derivative^[0 + 1] (((X : ℝ[X]) ^ 2 - 1) ^ 1) = 2 * X := by
    norm_num [pow_one, h2]
  rw [h1] at h
  simp only [Polynomial.eval_mul, Polynomial.eval_ofNat, Polynomial.eval_X] at h
  norm_num at h
  linarith

/-- The closed form satisfies the source recurrence
`P_{k+1}^n = v_k^n t P_k^n + w_k^n P_{k-1}^n` for `k ≥ n`. -/
theorem alfClosed_step (n k : ℕ) (hnk : n ≤ k) (t : ℝ) :
    alfClosed n (k + 1) t =
      vkn k n * t * alfClosed n k t + wkn k n * alfClosed n (k - 1) t := by
  rcases k with _ | kk
  · -- `k = 0` forces `n = 0`; both sides evaluate explicitly.
    have hn0 : n = 0 := Nat.le_zero.1 hnk
    subst hn0
    have hv : vkn 0 0 = 1 := by
      unfold vkn
      norm_num [Real.sqrt_one]
    have hC0 : alfClosed 0 0 t = 1 := by
      unfold alfClosed
      rw [En_self]
      norm_num [Real.sqrt_one]
    have hC1 : alfClosed 0 1 t = t := by
      unfold alfClosed
      rw [En_zero_one]
      norm_num [Real.sqrt_one]
    rw [hv, hC1, hC0, wkn_self]
    ring
  · -- `k = kk + 1 ≥ 1`: combine the mixed three-term identity with the
    -- square-root prefactor stepping lemmas.
    have hn : n ≤ kk + 1 := hnk
    have hnR : (n : ℝ) ≤ (kk : ℝ) + 1 := by exact_mod_cast hn
    rw [show kk + 1 + 1 = kk + 2 from rfl, show kk + 1 - 1 = kk from rfl]
    have hs := sqrt_fac_step n (kk + 1) hn
    rw [show kk + 1 + 1 - n = kk + 2 - n by omega,
      show kk + 1 + 1 + n = kk + 2 + n by omega] at hs
    push_cast at hs
    have hw : Real.sqrt (((kk : ℝ) + 1 - n) * ((kk : ℝ) + 1 + n)) *
        (Real.sqrt (((kk - n).factorial : ℝ) / ((kk + n).factorial : ℝ)) * En n kk t) =
        ((kk : ℝ) + 1 + n) *
          (Real.sqrt (((kk + 1 - n).factorial : ℝ) / ((kk + 1 + n).factorial : ℝ)) *
            En n kk t) := by
      rcases Nat.lt_or_ge kk n with hlt | hge
      · rw [En_zero_of_lt hlt]
        ring
      · have h := sqrt_fac_step_down n kk hge
        push_cast at h
        linear_combination En n kk t * h
    have hmix := mixed_En kk n t
    have hs1 : (0 : ℝ) < (kk : ℝ) + 1 - n + 1 := by linarith
    have hs2 : (0 : ℝ) < (kk : ℝ) + 1 + n + 1 := by positivity
    have hsq : (0 : ℝ) <
        Real.sqrt (((kk : ℝ) + 1 - n + 1) * ((kk : ℝ) + 1 + n + 1)) :=
      Real.sqrt_pos.2 (mul_pos hs1 hs2)
    have hsne : Real.sqrt (((kk : ℝ) + 1 - n + 1) * ((kk : ℝ) + 1 + n + 1)) ≠ 0 :=
      ne_of_gt hsq
    have hcal : Real.sqrt (((kk : ℝ) + 1 - n + 1) * ((kk : ℝ) + 1 + n + 1)) *
        (Real.sqrt (((kk + 2 - n).factorial : ℝ) / ((kk + 2 + n).factorial : ℝ)) *
          (Real.sqrt (1 - t ^ 2)) ^ n * En n (kk + 2) t) =
        (2 * ((kk : ℝ) + 1) + 1) * t *
            (Real.sqrt (((kk + 1 - n).factorial : ℝ) / ((kk + 1 + n).factorial : ℝ)) *
              (Real.sqrt (1 - t ^ 2)) ^ n * En n (kk + 1) t) -
          Real.sqrt (((kk : ℝ) + 1 - n) * ((kk : ℝ) + 1 + n)) *
            (Real.sqrt (((kk - n).factorial : ℝ) / ((kk + n).factorial : ℝ)) *
              (Real.sqrt (1 - t ^ 2)) ^ n * En n kk t) := by
      have hstep : Real.sqrt (((kk : ℝ) + 1 - n + 1) * ((kk : ℝ) + 1 + n + 1)) *
          (Real.sqrt (((kk + 2 - n).factorial : ℝ) / ((kk + 2 + n).factorial : ℝ)) *
            (Real.sqrt (1 - t ^ 2)) ^ n * En n (kk + 2) t) =
          (((kk : ℝ) + 1 - n + 1) *
              Real.sqrt (((kk + 1 - n).factorial : ℝ) / ((kk + 1 + n).factorial : ℝ))) *
            ((Real.sqrt (1 - t ^ 2)) ^ n * En n (kk + 2) t) := by
        rw [← hs]
        ring
      rw [hstep]
      linear_combination (Real.sqrt (((kk + 1 - n).factorial : ℝ) /
          ((kk + 1 + n).factorial : ℝ)) * (Real.sqrt (1 - t ^ 2)) ^ n) * hmix +
        (Real.sqrt (1 - t ^ 2)) ^ n * hw
    unfold alfClosed vkn wkn
    push_cast
    have hdiv := congrArg
      (fun x : ℝ => x / Real.sqrt (((kk : ℝ) + 1 - n + 1) * ((kk : ℝ) + 1 + n + 1))) hcal
    simp only [mul_div_cancel_left₀ _ hsne] at hdiv
    rw [hdiv]
    ring

/-- The recurrence pair agrees with the closed form at every step. -/
theorem alfPair_eq_closed (n : ℕ) (t : ℝ) (j : ℕ) :
    (alfPair n t j).2 = alfClosed n (n + j) t ∧
      (alfPair n t j).1 = (if j = 0 then 0 else alfClosed n (n + j - 1) t) := by
  induction j with
  | zero =>
    refine ⟨?_, rfl⟩
    show alfSeed n t = alfClosed n (n + 0) t
    rw [Nat.add_zero, alfClosed_seed]
  | succ j ih =>
    obtain ⟨ih2, ih1⟩ := ih
    constructor
    · show vkn (n + j) n * t * (alfPair n t j).2 + wkn (n + j) n * (alfPair n t j).1 =
        alfClosed n (n + (j + 1)) t
      rw [ih2, show n + (j + 1) = (n + j) + 1 by omega]
      rcases Nat.eq_zero_or_pos j with hj0 | hjpos
      · subst hj0
        simp only [Nat.add_zero]
        rw [show (alfPair n t 0).1 = (0 : ℝ) from rfl,
          alfClosed_step n n le_rfl t, wkn_self]
        ring
      · rw [if_neg (by omega)] at ih1
        rw [ih1]
        exact (alfClosed_step n (n + j) (Nat.le_add_right n j) t).symm
    · show (alfPair n t j).2 = _
      rw [ih2, if_neg (Nat.succ_ne_zero j), show n + (j + 1) - 1 = n + j by omega]

/-- **C3.** For every `n ≥ 0`, `k ≥ n` and `t ∈ [-1,1]`, the value produced by
the three-term recurrence `P_{k+1}^n = v_k^n t P_k^n + w_k^n P_{k-1}^n` with
seeds `P_{n-1}^n = 0`, `P_n^n(t) = sqrt((2n)!)/(2^n n!) (1-t²)^(n/2)` and the
source's coefficients `v_k^n`, `w_k^n` equals the associated Legendre function
defined by the closed form
`sqrt((k-n)!/(k+n)!) (1-t²)^(n/2) d^n/dt^n P_k(t)` with `P_k` the
Rodrigues-formula Legendre polynomial. -/
theorem alf_recurrence_eq_closed (n k : ℕ) (t : ℝ) (hnk : n ≤ k)
    (ht1 : -1 ≤ t) (ht2 : t ≤ 1) : alf n k t = alfClosed n k t := by
  unfold alf
  rw [if_neg (by omega)]
  have h := (alfPair_eq_closed n t (k - n)).1
  rwa [show n + (k - n) = k by omega] at h

/-- Witness for C3 at `n = 0`, `k = 1`, `t = 0`. -/
theorem alf_recurrence_eq_closed_witness :
    (0 : ℕ) ≤ 1 ∧ (-1 : ℝ) ≤ 0 ∧ (0 : ℝ) ≤ 1 ∧ alf 0 1 0 = alfClosed 0 1 0 :=
  ⟨Nat.zero_le 1, by norm_num, by norm_num,
    alf_recurrence_eq_closed 0 1 0 (Nat.zero_le 1) (by norm_num) (by norm_num)⟩

open Classical in
/-- Modelled from the spec: the direct evaluator's associated-Legendre
recurrence with explicit detection of the indeterminate arithmetic forms that
the spec's internal `NumericDegeneracy` state stands for (a division by a
vanishing square root, or a square root of a negative quantity).  The
implementation of the evaluator itself is not part of the repository; the
recurrence steps are exactly those of the source documentation, and `none`
models reaching the degenerate state. -/
noncomputable def alfPairChecked (n : ℕ) (t : ℝ) : ℕ → Option (ℝ × ℝ)
  | 0 => if 1 - t ^ 2 < 0 then none else some (0, alfSeed n t)
  | j + 1 =>
    (alfPairChecked n t j).bind fun pq =>
      if Real.sqrt ((((n + j : ℕ) : ℝ) - n + 1) * (((n + j : ℕ) : ℝ) + n + 1)) = 0 ∨
          (((n + j : ℕ) : ℝ) - n) * (((n + j : ℕ) : ℝ) + n) < 0 then none
      else some (pq.2, vkn (n + j) n * t * pq.2 + wkn (n + j) n * pq.1)

/-- The checked recurrence never reaches the degenerate state for any
`t ∈ [-1,1]`, and computes the same values as the plain recurrence. -/
theorem alfPairChecked_eq (n : ℕ) (t : ℝ) (ht : t ^ 2 ≤ 1) (j : ℕ) :
    alfPairChecked n t j = some (alfPair n t j) := by
  induction j with
  | zero =>
    rw [alfPairChecked, if_neg (by linarith)]
    rfl
  | succ j ih =>
    rw [alfPairChecked, ih]
    have h1 : Real.sqrt ((((n + j : ℕ) : ℝ) - n + 1) * (((n + j : ℕ) : ℝ) + n + 1)) ≠ 0 := by
      rw [Real.sqrt_ne_zero']
      push_cast
      have hj : (0 : ℝ) ≤ (j : ℝ) := Nat.cast_nonneg j
      have hn : (0 : ℝ) ≤ (n : ℝ) := Nat.cast_nonneg n
      nlinarith
    have h2 : ¬ ((((n + j : ℕ) : ℝ) - n) * (((n + j : ℕ) : ℝ) + n) < 0) := by
      push_cast
      have hj : (0 : ℝ) ≤ (j : ℝ) := Nat.cast_nonneg j
      have hn : (0 : ℝ) ≤ (n : ℝ) := Nat.cast_nonneg n
      nlinarith
    rw [Option.some_bind']
    rw [if_neg (by tauto)]
    rfl

/-- **C6.** For every node of the sphere — in particular at the poles
(`x2 = 0` or `x2 = 1/2`, i.e. `θ = 0` or `θ = π`, and also at the claim's
literal `x2 = 1/4`) — the direct evaluation of the associated Legendre
values through the mandated stable recurrence never reaches an indeterminate
arithmetic form: the checked evaluator always returns a well-defined finite
value, equal to the plain recurrence value, so the internal
`NumericDegeneracy` state is unreachable. -/
theorem checked_recurrence_no_degeneracy (n j : ℕ) (x2 : ℝ) :
    alfPairChecked n (Real.cos (2 * Real.pi * x2)) j =
      some (alfPair n (Real.cos (2 * Real.pi * x2)) j) := by
  apply alfPairChecked_eq
  have h1 := Real.neg_one_le_cos (2 * Real.pi * x2)
  have h2 := Real.cos_le_one (2 * Real.pi * x2)
  nlinarith

/-! ## Plan, flags and the direct transforms

The flag set is from the source documentation (`NFSFT_NORMALIZED`, …,
`NFSFT_ZERO_F_HAT`).  The buffer layout is the documented one: `f_hat` is a
flat array of `(2N+2)^2` complex values addressed through `NFSFT_INDEX`; `x`
stores node `m` as scaled azimuth `x(2m)` and scaled colatitude `x(2m+1)`;
`f` holds one sample per node. -/

/-- The NFSFT flag families, one Boolean per source flag. -/
structure NfsftFlags where
  normalized : Bool
  useNDFT : Bool
  useDPT : Bool
  mallocX : Bool
  mallocFhat : Bool
  mallocF : Bool
  preserveFhat : Bool
  preserveX : Bool
  preserveF : Bool
  destroyFhat : Bool
  destroyX : Bool
  destroyF : Bool
  noDirectAlgorithm : Bool
  noFastAlgorithm : Bool
  zeroFhat : Bool

/-- The transform plan: bandwidth, node count, coefficient / sample / node
buffers, and flags. -/
structure nfsft_plan where
  N : ℕ
  M : ℕ
  fhat : ℤ → ℂ
  f : ℕ → ℂ
  x : ℕ → ℝ
  flags : NfsftFlags

/-- The normalization constant `c_k^n`: `1` for the unnormalized basis,
`sqrt((2k+1)/(4π))` when `NFSFT_NORMALIZED` is set. -/
noncomputable def ckn (normalized : Bool) (k : ℕ) : ℂ :=
  if normalized then ((Real.sqrt ((2 * (k : ℝ) + 1) / (4 * Real.pi)) : ℝ) : ℂ) else 1

/-- The spherical harmonic basis function
`Y_k^n(ϑ,φ) = c_k^n P_k^{|n|}(cos ϑ) e^{inφ}` of the source documentation. -/
noncomputable def sphY (normalized : Bool) (k : ℕ) (n : ℤ) (ϑ φ : ℝ) : ℂ :=
  ckn normalized k * ((alf n.natAbs k (Real.cos ϑ) : ℝ) : ℂ) *
    Complex.exp (Complex.I * n * φ)

/-- The defining double sum of the direct forward NDSFT at node `m`:
`f(m) = Σ_{k=0}^{N} Σ_{n=-k}^{k} f_hat(k,n) Y_k^n(2π x2(m), 2π x1(m))`,
reading the coefficients through the flat-buffer index mapper. -/
noncomputable def ndsft_sum (p : nfsft_plan) (m : ℕ) : ℂ :=
  ∑ k ∈ Finset.range (p.N + 1), ∑ n ∈ Finset.Icc (-(k : ℤ)) (k : ℤ),
    p.fhat (NFSFT_INDEX (k : ℤ) n p.N) *
      sphY p.flags.normalized k n (2 * Real.pi * p.x (2 * m + 1))
        (2 * Real.pi * p.x (2 * m))

/-- Model of a buffer whose contents an operation was allowed to destroy. -/
def trashedC : ℤ → ℂ := fun _ => 0

/-- Model of a destroyed sample buffer. -/
def trashedF : ℕ → ℂ := fun _ => 0

/-- Model of a destroyed node buffer. -/
def trashedX : ℕ → ℝ := fun _ => 0

/-- Modelled from the spec: the direct forward transform
(`nfsft_direct_trafo`, whose implementation is not part of the repository —
only its defining documentation is).  It writes the defining double sum into
the sample buffer for every node, preserves the node buffer unless
`NFSFT_DESTROY_X` is set, and preserves the coefficient buffer exactly when
`NFSFT_PRESERVE_F_HAT` is set (by default it may destroy it). -/
noncomputable def nfsft_direct_trafo (p : nfsft_plan) : nfsft_plan :=
  { p with
    f := fun m => if m < p.M then ndsft_sum p m else p.f m,
    fhat := if p.flags.preserveFhat then p.fhat else trashedC,
    x := if p.flags.destroyX then trashedX else p.x }

/-- Decode the degree `k` from a flat coefficient-buffer position. -/
def idxK (i : ℤ) (N : ℕ) : ℤ := (i - ((N : ℤ) + 1)) % ((N : ℤ) + 2)

/-- Decode the order `n` from a flat coefficient-buffer position. -/
def idxN (i : ℤ) (N : ℕ) : ℤ := ((N : ℤ) + 1) - (i - ((N : ℤ) + 1)) / ((N : ℤ) + 2)

/-- A flat position is valid when it decodes to a valid `(k,n)` pair that
maps back to it. -/
def validPos (i : ℤ) (N : ℕ) : Prop :=
  NFSFT_INDEX (idxK i N) (idxN i N) N = i ∧ validPair N (idxK i N) (idxN i N)

instance (i : ℤ) (N : ℕ) : Decidable (validPos i N) := by
  unfold validPos
  infer_instance

/-- The defining sum of the direct adjoint NDSFT at `(k,n)`:
`f_hat(k,n) = Σ_{m=0}^{M-1} f(m) conj(Y_k^n(2π x2(m), 2π x1(m)))`. -/
noncomputable def ndsft_adjoint_sum (p : nfsft_plan) (k n : ℤ) : ℂ :=
  ∑ m ∈ Finset.range p.M,
    p.f m * (starRingEnd ℂ)
      (sphY p.flags.normalized k.toNat n (2 * Real.pi * p.x (2 * m + 1))
        (2 * Real.pi * p.x (2 * m)))

/-- Modelled from the spec: the direct adjoint transform
(`nfsft_direct_adjoint`, whose implementation is not part of the repository).
It writes the defining adjoint sums into the valid coefficient slots, zeroes
the remaining slots when `NFSFT_ZERO_F_HAT` is set, and preserves the sample
and node buffers unless the corresponding destroy flags are set. -/
noncomputable def nfsft_direct_adjoint (p : nfsft_plan) : nfsft_plan :=
  { p with
    fhat := fun i =>
      if validPos i p.N then ndsft_adjoint_sum p (idxK i p.N) (idxN i p.N)
      else if p.flags.zeroFhat then 0 else p.fhat i,
    f := if p.flags.destroyF then trashedF else p.f,
    x := if p.flags.destroyX then trashedX else p.x }

/-- The index decode functions invert the index mapper on valid pairs. -/
theorem decode_index (N : ℕ) (k n : ℤ) (h : validPair N k n) :
    idxK (NFSFT_INDEX k n N) N = k ∧ idxN (NFSFT_INDEX k n N) N = n := by
  obtain ⟨h0, hN, hn1, hn2⟩ := h
  unfold idxK idxN NFSFT_INDEX
  have e : ((N : ℤ) + 2) * ((N : ℤ) - n + 1) + (N : ℤ) + k + 1 - ((N : ℤ) + 1) =
      k + ((N : ℤ) + 2) * ((N : ℤ) - n + 1) := by ring
  rw [e, Int.add_mul_emod_self_left, Int.add_mul_ediv_left k ((N : ℤ) - n + 1) (by omega),
    Int.emod_eq_of_lt h0 (by omega), Int.ediv_eq_zero_of_lt h0 (by omega)]
  omega

/-- **C1.** For every plan with bandwidth `N ≥ 0`, node count `M ≥ 1`,
coefficients and nodes, the direct forward transform returns, for each
`m < M`, the sample `f(m)` equal to the double sum over `k = 0..N`,
`n = -k..k` of `f_hat(k,n) · c_k^n · P_k^{|n|}(cos θ_m) · exp(i n φ_m)`
with `θ_m = 2π x2(m)`, `φ_m = 2π x1(m)` and `c_k^n = 1` when the
normalization flag is unset, `sqrt((2k+1)/4π)` when it is set. -/
theorem direct_trafo_eq_defining_sum (p : nfsft_plan) (m : ℕ)
    (hM : 1 ≤ p.M) (hm : m < p.M) :
    (nfsft_direct_trafo p).f m =
      ∑ k ∈ Finset.range (p.N + 1), ∑ n ∈ Finset.Icc (-(k : ℤ)) (k : ℤ),
        p.fhat (NFSFT_INDEX (k : ℤ) n p.N) *
          ((if p.flags.normalized
              then ((Real.sqrt ((2 * (k : ℝ) + 1) / (4 * Real.pi)) : ℝ) : ℂ) else 1) *
            ((alf n.natAbs k (Real.cos (2 * Real.pi * p.x (2 * m + 1))) : ℝ) : ℂ) *
            Complex.exp (Complex.I * n * ((2 * Real.pi * p.x (2 * m) : ℝ) : ℂ))) := by
  show (if m < p.M then ndsft_sum p m else p.f m) = _
  rw [if_pos hm]
  unfold ndsft_sum sphY ckn
  rfl

/-- All-false flag set (the default `0U` flag word of the source drivers). -/
def testFlags : NfsftFlags :=
  ⟨false, false, false, false, false, false, false, false, false, false, false,
    false, false, false, false⟩

/-- A concrete plan with `N = 0`, `M = 1` and zero buffers. -/
noncomputable def testPlan : nfsft_plan :=
  ⟨0, 1, fun _ => 0, fun _ => 0, fun _ => 0, testFlags⟩

/-- Witness for C1 at the concrete plan `testPlan` and node `m = 0`. -/
theorem direct_trafo_eq_defining_sum_witness :
    1 ≤ testPlan.M ∧ 0 < testPlan.M ∧
      (nfsft_direct_trafo testPlan).f 0 =
        ∑ k ∈ Finset.range (testPlan.N + 1), ∑ n ∈ Finset.Icc (-(k : ℤ)) (k : ℤ),
          testPlan.fhat (NFSFT_INDEX (k : ℤ) n testPlan.N) *
            ((if testPlan.flags.normalized
                then ((Real.sqrt ((2 * (k : ℝ) + 1) / (4 * Real.pi)) : ℝ) : ℂ) else 1) *
              ((alf n.natAbs k (Real.cos (2 * Real.pi * testPlan.x (2 * 0 + 1))) : ℝ) : ℂ) *
              Complex.exp (Complex.I * n * ((2 * Real.pi * testPlan.x (2 * 0) : ℝ) : ℂ))) :=
  ⟨by decide, by decide,
    direct_trafo_eq_defining_sum testPlan 0 (by decide) (by decide)⟩

/-- **C2.** For every plan with bandwidth `N ≥ 0`, node count `M ≥ 1`,
samples and nodes, the direct adjoint transform returns, for each valid
`(k,n)`, the coefficient `f_hat(k,n)` equal to the sum over `m = 0..M-1` of
`f(m)` times the complex conjugate of the basis value
`c_k^n · P_k^{|n|}(cos θ_m) · exp(i n φ_m)`. -/
theorem direct_adjoint_eq_defining_sum (p : nfsft_plan) (k : ℕ) (n : ℤ)
    (hM : 1 ≤ p.M) (hk : k ≤ p.N) (hn : n.natAbs ≤ k) :
    (nfsft_direct_adjoint p).fhat (NFSFT_INDEX (k : ℤ) n p.N) =
      ∑ m ∈ Finset.range p.M,
        p.f m * (starRingEnd ℂ)
          ((if p.flags.normalized
              then ((Real.sqrt ((2 * (k : ℝ) + 1) / (4 * Real.pi)) : ℝ) : ℂ) else 1) *
            ((alf n.natAbs k (Real.cos (2 * Real.pi * p.x (2 * m + 1))) : ℝ) : ℂ) *
            Complex.exp (Complex.I * n * ((2 * Real.pi * p.x (2 * m) : ℝ) : ℂ))) := by
  have hv : validPair p.N (k : ℤ) n :=
    ⟨Int.natCast_nonneg k, by exact_mod_cast hk, by omega, by omega⟩
  have hd := decode_index p.N (k : ℤ) n hv
  show (if validPos (NFSFT_INDEX (k : ℤ) n p.N) p.N then
      ndsft_adjoint_sum p (idxK (NFSFT_INDEX (k : ℤ) n p.N) p.N)
        (idxN (NFSFT_INDEX (k : ℤ) n p.N) p.N)
    else if p.flags.zeroFhat then 0 else p.fhat (NFSFT_INDEX (k : ℤ) n p.N)) = _
  rw [if_pos ⟨by rw [hd.1, hd.2], by rw [hd.1, hd.2]; exact hv⟩, hd.1, hd.2]
  unfold ndsft_adjoint_sum sphY ckn
  simp only [Int.toNat_natCast]

/-- Witness for C2 at the concrete plan `testPlan` and `(k,n) = (0,0)`. -/
theorem direct_adjoint_eq_defining_sum_witness :
    1 ≤ testPlan.M ∧ 0 ≤ testPlan.N ∧ (0 : ℤ).natAbs ≤ 0 ∧
      (nfsft_direct_adjoint testPlan).fhat (NFSFT_INDEX 0 0 testPlan.N) =
        ∑ m ∈ Finset.range testPlan.M,
          testPlan.f m * (starRingEnd ℂ)
            ((if testPlan.flags.normalized
                then ((Real.sqrt ((2 * (0 : ℝ) + 1) / (4 * Real.pi)) : ℝ) : ℂ) else 1) *
              ((alf (0 : ℤ).natAbs 0
                  (Real.cos (2 * Real.pi * testPlan.x (2 * m + 1))) : ℝ) : ℂ) *
              Complex.exp (Complex.I * (0 : ℤ) * ((2 * Real.pi * testPlan.x (2 * m) : ℝ) : ℂ))) :=
  ⟨by decide, by decide, by decide,
    direct_adjoint_eq_defining_sum testPlan 0 0 (by decide) (by decide) (by decide)⟩

/-! ## Fast transforms, the precomputation cache, and frame contracts -/

/-- The error taxonomy of the specification (§7). -/
inductive NfsftError
  | InvalidParameter
  | DirectAlgorithmDisabled
  | FastAlgorithmDisabled
  | MissingPrecomputation

/-- Which internal path a fast-transform invocation took. -/
inductive TrafoPath
  | fastPath
  | directPath

/-- The next power of two with respect to `N`, as computed by the source
drivers (`1 << ceil(log2 N)`). -/
def nextPow2 (N : ℕ) : ℕ := 2 ^ Nat.clog 2 N

/-- Modelled from the spec: the process-wide precomputation cache
("wisdom"), keyed by `(cachedBandwidth = nextPow2 N, stabilization
threshold κ)`; the implementation is not part of the repository. -/
structure Wisdom where
  entry : Option (ℕ × ℝ)

/-- Modelled from the spec: `nfsft_precompute` builds the cache entry for
`cachedBandwidth = nextPow2(N)` at threshold `κ`. -/
def nfsft_precompute (N : ℕ) (κ : ℝ) (_w : Wisdom) : Wisdom :=
  ⟨some (nextPow2 N, κ)⟩

/-- Modelled from the spec: `nfsft_forget` discards all precomputed data. -/
def nfsft_forget (_w : Wisdom) : Wisdom := ⟨none⟩

/-- The cache holds an entry sufficient for a plan of bandwidth `N`
(some cached bandwidth `≥ N`, at whatever threshold it was built). -/
def sufficientEntry (w : Wisdom) (N : ℕ) : Prop :=
  ∃ Nc κ, w.entry = some (Nc, κ) ∧ N ≤ Nc

/-- Modelled from the spec: the gating of a fast-algorithm invocation.  It
fails with `FastAlgorithmDisabled` when the fast algorithms are disabled,
takes the direct-internal path when an `NFSFT_USE_NDFT` / `NFSFT_USE_DPT`
override flag forces it, otherwise requires a sufficient cache entry and
fails with `MissingPrecomputation` without one. -/
def fastGate (p : nfsft_plan) (w : Wisdom) : Except NfsftError TrafoPath :=
  if p.flags.noFastAlgorithm then .error .FastAlgorithmDisabled
  else if p.flags.useNDFT || p.flags.useDPT then .ok .directPath
  else
    match w.entry with
    | some (Nc, _) => if p.N ≤ Nc then .ok .fastPath else .error .MissingPrecomputation
    | none => .error .MissingPrecomputation

/-- Modelled from the spec: the fast forward transform checked against the
cache.  The transform output itself is modelled as the exact defining sum
(the external Fourier / polynomial collaborators are treated as correct per
the spec). -/
noncomputable def nfsft_trafo_checked (p : nfsft_plan) (w : Wisdom) :
    Except NfsftError (TrafoPath × (ℕ → ℂ)) :=
  (fastGate p w).map
    (fun path => (path, fun m => if m < p.M then ndsft_sum p m else p.f m))

/-- Modelled from the spec: the fast adjoint transform checked against the
cache (same gating as the forward transform). -/
noncomputable def nfsft_adjoint_checked (p : nfsft_plan) (w : Wisdom) :
    Except NfsftError (TrafoPath × (ℤ → ℂ)) :=
  (fastGate p w).map (fun path => (path, (nfsft_direct_adjoint p).fhat))

theorem except_map_eq_error {α β γ : Type} (f : α → β) (x : Except γ α) (e : γ) :
    x.map f = .error e ↔ x = .error e := by
  cases x <;> simp [Except.map]

theorem fastGate_error_iff (p : nfsft_plan) (w : Wisdom)
    (hnf : p.flags.noFastAlgorithm = false) :
    fastGate p w = .error .MissingPrecomputation ↔
      ¬ sufficientEntry w p.N ∧ p.flags.useNDFT = false ∧ p.flags.useDPT = false := by
  unfold fastGate
  rw [hnf]
  obtain ⟨entry⟩ := w
  rcases hU : p.flags.useNDFT <;> rcases hV : p.flags.useDPT <;>
    rcases entry with _ | ⟨Nc, κc⟩ <;>
      simp_all [sufficientEntry]

theorem fastGate_directPath (p : nfsft_plan) (w : Wisdom)
    (h : fastGate p w = .ok .directPath) :
    p.flags.useNDFT = true ∨ p.flags.useDPT = true := by
  unfold fastGate at h
  by_cases hnf : p.flags.noFastAlgorithm = true
  · rw [if_pos hnf] at h
    exact Except.noConfusion h
  · rw [if_neg hnf] at h
    by_cases hor : (p.flags.useNDFT || p.flags.useDPT) = true
    · exact Bool.or_eq_true _ _ ▸ hor
    · rw [if_neg hor] at h
      obtain ⟨entry⟩ := w
      rcases entry with _ | ⟨Nc, κc⟩
      · exact Except.noConfusion h
      · dsimp only at h
        split at h
        · injection h with h'
          exact TrafoPath.noConfusion h'
        · exact Except.noConfusion h

/-- **C7.** With the fast algorithms enabled, a fast invocation (forward or
adjoint) fails with `MissingPrecomputation` iff no sufficient cache entry
exists and no forcing direct-fallback flag is set; after `forget` every such
invocation without a forcing flag fails with `MissingPrecomputation`; after
a subsequent `precompute` at sufficient bandwidth the same invocation (still
without forcing flags) succeeds on the fast path; and a direct-stage
fallback happens only when an override flag is set. -/
theorem fast_missing_precomputation_iff (p : nfsft_plan) (w : Wisdom)
    (κ : ℝ) (Np : ℕ) (hnf : p.flags.noFastAlgorithm = false) :
    ((nfsft_trafo_checked p w = .error .MissingPrecomputation ↔
        ¬ sufficientEntry w p.N ∧ p.flags.useNDFT = false ∧ p.flags.useDPT = false) ∧
      (nfsft_adjoint_checked p w = .error .MissingPrecomputation ↔
        ¬ sufficientEntry w p.N ∧ p.flags.useNDFT = false ∧ p.flags.useDPT = false)) ∧
    (p.flags.useNDFT = false → p.flags.useDPT = false →
      nfsft_trafo_checked p (nfsft_forget w) = .error .MissingPrecomputation ∧
        nfsft_adjoint_checked p (nfsft_forget w) = .error .MissingPrecomputation) ∧
    (p.flags.useNDFT = false → p.flags.useDPT = false → p.N ≤ Np →
      nfsft_trafo_checked p (nfsft_precompute Np κ w) =
          .ok (.fastPath, fun m => if m < p.M then ndsft_sum p m else p.f m) ∧
        nfsft_adjoint_checked p (nfsft_precompute Np κ w) =
          .ok (.fastPath, (nfsft_direct_adjoint p).fhat)) ∧
    ((∀ out, nfsft_trafo_checked p w = .ok (.directPath, out) →
        p.flags.useNDFT = true ∨ p.flags.useDPT = true) ∧
      (∀ out, nfsft_adjoint_checked p w = .ok (.directPath, out) →
        p.flags.useNDFT = true ∨ p.flags.useDPT = true)) := by
  have hNp : Np ≤ nextPow2 Np := Nat.le_pow_clog one_lt_two Np
  have hgate := fastGate_error_iff p w hnf
  refine ⟨⟨?_, ?_⟩, ?_, ?_, ?_, ?_⟩
  · rw [nfsft_trafo_checked, except_map_eq_error]
    exact hgate
  · rw [nfsft_adjoint_checked, except_map_eq_error]
    exact hgate
  · intro hU hV
    have hg : fastGate p (nfsft_forget w) = .error .MissingPrecomputation := by
      rw [fastGate_error_iff p _ hnf]
      refine ⟨?_, hU, hV⟩
      rintro ⟨Nc, κ', he, -⟩
      exact Option.noConfusion he
    constructor
    · rw [nfsft_trafo_checked, hg]
      rfl
    · rw [nfsft_adjoint_checked, hg]
      rfl
  · intro hU hV hle
    have hg : fastGate p (nfsft_precompute Np κ w) = .ok .fastPath := by
      unfold fastGate nfsft_precompute
      rw [hnf, hU, hV]
      simp [le_trans hle hNp]
    constructor
    · rw [nfsft_trafo_checked, hg]
      rfl
    · rw [nfsft_adjoint_checked, hg]
      rfl
  · intro out hout
    rw [nfsft_trafo_checked] at hout
    rcases hg : fastGate p w with e | path
    · rw [hg] at hout
      exact Except.noConfusion hout
    · rw [hg] at hout
      have hpath : path = .directPath := by
        have := congrArg (fun z : Except NfsftError (TrafoPath × (ℕ → ℂ)) =>
          match z with
          | .ok y => some y.1
          | .error _ => none) hout
        simpa [Except.map] using this
      exact fastGate_directPath p w (hpath ▸ hg)
  · intro out hout
    rw [nfsft_adjoint_checked] at hout
    rcases hg : fastGate p w with e | path
    · rw [hg] at hout
      exact Except.noConfusion hout
    · rw [hg] at hout
      have hpath : path = .directPath := by
        have := congrArg (fun z : Except NfsftError (TrafoPath × (ℤ → ℂ)) =>
          match z with
          | .ok y => some y.1
          | .error _ => none) hout
        simpa [Except.map] using this
      exact fastGate_directPath p w (hpath ▸ hg)

/-- Witness for C7 at `testPlan` (fast algorithms enabled, no forcing
flags), the empty cache, `κ = 1`, `Np = 0`. -/
theorem fast_missing_precomputation_iff_witness :
    testPlan.flags.noFastAlgorithm = false ∧
      (nfsft_trafo_checked testPlan ⟨none⟩ = .error .MissingPrecomputation ↔
        ¬ sufficientEntry ⟨none⟩ testPlan.N ∧ testPlan.flags.useNDFT = false ∧
          testPlan.flags.useDPT = false) :=
  ⟨rfl, ((fast_missing_precomputation_iff testPlan ⟨none⟩ 1 0 rfl).1).1⟩

/-- Modelled from the spec: the fast forward transform at plan level (the
buffer contract of `nfsft_trafo` is the same flag-driven one as for
`nfsft_direct_trafo`; its output is the defining sum with the external
collaborators treated as correct). -/
noncomputable def nfsft_trafo (p : nfsft_plan) : nfsft_plan :=
  { p with
    f := fun m => if m < p.M then ndsft_sum p m else p.f m,
    fhat := if p.flags.preserveFhat then p.fhat else trashedC,
    x := if p.flags.destroyX then trashedX else p.x }

/-- Modelled from the spec: the fast adjoint transform at plan level (the
buffer contract of `nfsft_adjoint` is the same flag-driven one as for
`nfsft_direct_adjoint`). -/
noncomputable def nfsft_adjoint (p : nfsft_plan) : nfsft_plan :=
  { p with
    fhat := fun i =>
      if validPos i p.N then ndsft_adjoint_sum p (idxK i p.N) (idxN i p.N)
      else if p.flags.zeroFhat then 0 else p.fhat i,
    f := if p.flags.destroyF then trashedF else p.f,
    x := if p.flags.destroyX then trashedX else p.x }

/-- **C8.** For every plan whose flags set neither a preservation nor a
destruction flag for the node buffer (resp. the sample buffer): a forward
transform (direct or fast) leaves the node buffer unchanged; an adjoint
transform (direct or fast) leaves the sample and node buffers unchanged;
and when the preserve-coefficients flag is set, a forward transform (direct
or fast) also leaves the coefficient buffer unchanged. -/
theorem transform_frame_contracts (p : nfsft_plan)
    (hx : p.flags.preserveX = false ∧ p.flags.destroyX = false)
    (hf : p.flags.preserveF = false ∧ p.flags.destroyF = false) :
    ((nfsft_direct_trafo p).x = p.x ∧ (nfsft_trafo p).x = p.x) ∧
    ((nfsft_direct_adjoint p).x = p.x ∧ (nfsft_adjoint p).x = p.x) ∧
    ((nfsft_direct_adjoint p).f = p.f ∧ (nfsft_adjoint p).f = p.f) ∧
    (p.flags.preserveFhat = true →
      (nfsft_direct_trafo p).fhat = p.fhat ∧ (nfsft_trafo p).fhat = p.fhat) := by
  obtain ⟨hx1, hx2⟩ := hx
  obtain ⟨hf1, hf2⟩ := hf
  refine ⟨⟨?_, ?_⟩, ⟨?_, ?_⟩, ⟨?_, ?_⟩, fun hp => ⟨?_, ?_⟩⟩
  · simp [nfsft_direct_trafo, hx2]
  · simp [nfsft_trafo, hx2]
  · simp [nfsft_direct_adjoint, hx2]
  · simp [nfsft_adjoint, hx2]
  · simp [nfsft_direct_adjoint, hf2]
  · simp [nfsft_adjoint, hf2]
  · simp [nfsft_direct_trafo, hp]
  · simp [nfsft_trafo, hp]

/-- Witness for C8 at the concrete plan `testPlan` (all flags unset). -/
theorem transform_frame_contracts_witness :
    (testPlan.flags.preserveX = false ∧ testPlan.flags.destroyX = false) ∧
      (testPlan.flags.preserveF = false ∧ testPlan.flags.destroyF = false) ∧
      (((nfsft_direct_trafo testPlan).x = testPlan.x ∧
          (nfsft_trafo testPlan).x = testPlan.x) ∧
        ((nfsft_direct_adjoint testPlan).x = testPlan.x ∧
          (nfsft_adjoint testPlan).x = testPlan.x) ∧
        ((nfsft_direct_adjoint testPlan).f = testPlan.f ∧
          (nfsft_adjoint testPlan).f = testPlan.f) ∧
        (testPlan.flags.preserveFhat = true →
          (nfsft_direct_trafo testPlan).fhat = testPlan.fhat ∧
            (nfsft_trafo testPlan).fhat = testPlan.fhat)) :=
  ⟨⟨rfl, rfl⟩, ⟨rfl, rfl⟩,
    transform_frame_contracts testPlan ⟨rfl, rfl⟩ ⟨rfl, rfl⟩⟩

/-! ## Padding reads of the fast transform (old column-based interface)

The accuracy driver stores coefficients per order `n` in columns of length
`nextPow2(N)+1` and zeroes the slots with `k < |n|` and `N < k ≤ nextPow2(N)`
before calling the fast transform. -/

/-- Modelled from the spec: the fast forward transform of the column-based
interface used by the accuracy driver.  Precomputation is keyed by
`nextPow2(N)`, and the polynomial stage at the cached bandwidth consumes
each order-`n` coefficient column up to degree `nextPow2(N)`, so the slots
with `N < k ≤ nextPow2(N)` (and the slots with `k < |n|`) are read. -/
noncomputable def fastTrafoOld (c : ℤ → ℕ → ℂ) (N : ℕ) (b : Bool) (ϑ φ : ℝ) : ℂ :=
  ∑ n ∈ Finset.Icc (-(N : ℤ)) (N : ℤ), ∑ k ∈ Finset.range (nextPow2 N + 1),
    c n k * sphY b k n ϑ φ

/-- The defining truncated sum of the forward transform at bandwidth `N`. -/
noncomputable def truncatedSum (c : ℤ → ℕ → ℂ) (N : ℕ) (b : Bool) (ϑ φ : ℝ) : ℂ :=
  ∑ k ∈ Finset.range (N + 1), ∑ n ∈ Finset.Icc (-(k : ℤ)) (k : ℤ),
    c n k * sphY b k n ϑ φ

/-- **C10 (amended).** If the caller zeroes all padding slots (degrees
`N < k ≤ nextPow2(N)`; the slots with `k < |n|` carry zero basis weight),
then the fast transform output equals the defining truncated sum.  (The
"only when" direction of the claim fails: see the counterexample.) -/
theorem fastTrafoOld_eq_of_padding_zero (c : ℤ → ℕ → ℂ) (N : ℕ) (b : Bool)
    (ϑ φ : ℝ)
    (hpad : ∀ n : ℤ, ∀ k : ℕ, n.natAbs ≤ N → N < k → k ≤ nextPow2 N → c n k = 0) :
    fastTrafoOld c N b ϑ φ = truncatedSum c N b ϑ φ := by
  have hNle : N ≤ nextPow2 N := Nat.le_pow_clog one_lt_two N
  unfold fastTrafoOld truncatedSum
  have hsplit : ∀ n : ℤ, n ∈ Finset.Icc (-(N : ℤ)) (N : ℤ) →
      ∑ k ∈ Finset.range (nextPow2 N + 1), c n k * sphY b k n ϑ φ =
        ∑ k ∈ Finset.range (N + 1), c n k * sphY b k n ϑ φ := by
    intro n hn
    rw [Finset.mem_Icc] at hn
    have h1 : Finset.range (nextPow2 N + 1) =
        Finset.range (N + 1) ∪ Finset.Ico (N + 1) (nextPow2 N + 1) := by
      rw [Finset.range_eq_Ico]
      exact (Finset.Ico_union_Ico_eq_Ico (Nat.zero_le _) (by omega)).symm
    have hdisj : Disjoint (Finset.range (N + 1)) (Finset.Ico (N + 1) (nextPow2 N + 1)) :=
      Finset.disjoint_left.2 fun a ha hb => by
        rw [Finset.mem_range] at ha
        rw [Finset.mem_Ico] at hb
        omega
    rw [h1, Finset.sum_union hdisj]
    have h2 : ∑ k ∈ Finset.Ico (N + 1) (nextPow2 N + 1), c n k * sphY b k n ϑ φ = 0 := by
      apply Finset.sum_eq_zero
      intro k hk
      rw [Finset.mem_Ico] at hk
      rw [hpad n k (by omega) (by omega) (by omega), zero_mul]
    rw [h2, add_zero]
  rw [Finset.sum_congr rfl hsplit, Finset.sum_comm]
  apply Finset.sum_congr rfl
  intro k hk
  rw [Finset.mem_range] at hk
  symm
  apply Finset.sum_subset
  · intro n hn
    rw [Finset.mem_Icc] at hn ⊢
    omega
  · intro n hn hnot
    have hklt : k < n.natAbs := by
      rw [Finset.mem_Icc] at hn hnot
      omega
    unfold sphY alf
    rw [if_pos hklt]
    simp

/-- At the north pole (`t = 1`) the recurrence seed vanishes for `n ≥ 1`. -/
theorem alfSeed_one {n : ℕ} (hn : 1 ≤ n) : alfSeed n 1 = 0 := by
  unfold alfSeed
  rw [show (1 : ℝ) - 1 ^ 2 = 0 by norm_num, Real.sqrt_zero,
    zero_pow (by omega : n ≠ 0), mul_zero]

theorem alfPair_one_zero {n : ℕ} (hn : 1 ≤ n) (j : ℕ) : alfPair n 1 j = (0, 0) := by
  induction j with
  | zero =>
    show ((0 : ℝ), alfSeed n 1) = (0, 0)
    rw [alfSeed_one hn]
  | succ j ih =>
    show ((alfPair n 1 j).2,
      vkn (n + j) n * 1 * (alfPair n 1 j).2 + wkn (n + j) n * (alfPair n 1 j).1) = (0, 0)
    rw [ih]
    norm_num

/-- `P_k^n(1) = 0` for every `n ≥ 1`. -/
theorem alf_one {n : ℕ} (hn : 1 ≤ n) (k : ℕ) : alf n k 1 = 0 := by
  unfold alf
  by_cases h : k < n
  · rw [if_pos h]
  · rw [if_neg h, alfPair_one_zero hn]

/-- Coefficients that are zero on the meaningful triangular set but carry a
single nonzero padding slot at `(k,n) = (4,1)`. -/
def padCoeffs : ℤ → ℕ → ℂ := fun n k => if n = 1 ∧ k = 4 then 1 else 0

/-- **C10 counterexample.** For bandwidth `N = 3` (`nextPow2 3 = 4`), the
coefficient assignment `padCoeffs` has a nonzero padding slot at degree
`k = 4 > N`, yet at the pole node `ϑ = φ = 0` the fast transform output
equals the defining truncated sum — so the output can equal the truncated
sum even when the caller has not zeroed all padding slots ("only when"
fails). -/
theorem fastTrafoOld_eq_with_nonzero_padding :
    padCoeffs 1 4 ≠ 0 ∧ 3 < 4 ∧ 4 ≤ nextPow2 3 ∧
      fastTrafoOld padCoeffs 3 false 0 0 = truncatedSum padCoeffs 3 false 0 0 := by
  refine ⟨?_, by omega, ?_, ?_⟩
  · simp [padCoeffs]
  · have h1 : Nat.clog 2 3 ≤ 2 := (Nat.le_pow_iff_clog_le one_lt_two).1 (by norm_num)
    have h2 : ¬ (Nat.clog 2 3 ≤ 1) := fun hc => by
      have h3 := (Nat.le_pow_iff_clog_le one_lt_two).2 hc
      norm_num at h3
    have hc : Nat.clog 2 3 = 2 := by omega
    rw [nextPow2, hc]
    norm_num
  · have hfast : fastTrafoOld padCoeffs 3 false 0 0 = 0 := by
      unfold fastTrafoOld
      apply Finset.sum_eq_zero
      intro n hn
      apply Finset.sum_eq_zero
      intro k hk
      by_cases h : n = 1 ∧ k = 4
      · obtain ⟨rfl, rfl⟩ := h
        have hY : sphY false 4 1 0 0 = 0 := by
          unfold sphY
          rw [show ((1 : ℤ).natAbs) = 1 from rfl, Real.cos_zero, alf_one le_rfl 4]
          norm_num
        rw [hY, mul_zero]
      · rw [show padCoeffs n k = 0 by simp only [padCoeffs, if_neg h], zero_mul]
    have htrunc : truncatedSum padCoeffs 3 false 0 0 = 0 := by
      unfold truncatedSum
      apply Finset.sum_eq_zero
      intro k hk
      apply Finset.sum_eq_zero
      intro n hn
      rw [Finset.mem_range] at hk
      have h : ¬ (n = 1 ∧ k = 4) := by omega
      rw [show padCoeffs n k = 0 by simp only [padCoeffs, if_neg h], zero_mul]
    rw [hfast, htrunc]

/-- Witness for the amended C10 at the all-zero coefficients, `N = 1`,
pole node. -/
theorem fastTrafoOld_eq_of_padding_zero_witness :
    (∀ n : ℤ, ∀ k : ℕ, n.natAbs ≤ 1 → 1 < k → k ≤ nextPow2 1 →
        (fun (_ : ℤ) (_ : ℕ) => (0 : ℂ)) n k = 0) ∧
      fastTrafoOld (fun _ _ => 0) 1 false 0 0 =
        truncatedSum (fun _ _ => 0) 1 false 0 0 :=
  ⟨fun _ _ _ _ _ => rfl,
    fastTrafoOld_eq_of_padding_zero (fun _ _ => 0) 1 false 0 0 (fun _ _ _ _ _ => rfl)⟩

end

end NFSFT
